import Mathlib

/-!
A verification development for the effective-medium dielectric engine in
`Python/Calculator.py` of the PDielec repository.

The Python module manipulates 3x3 real and complex tensors (numpy arrays).
We embed them as Mathlib matrices over `ℝ` and `ℂ`, idealising floating-point
arithmetic as exact real/complex arithmetic.  External library calls
(`np.linalg.eigh`, `scipy.optimize.minimize`) are modelled by their
contracts: `eigh` by quantifying over any orthogonal eigendecomposition of the
symmetric input, `minimize` by an arbitrary function producing the pair of
real variables the optimiser returns.
-/

open scoped Matrix

abbrev M3 : Type := Matrix (Fin 3) (Fin 3) ℂ
abbrev M3R : Type := Matrix (Fin 3) (Fin 3) ℝ
abbrev V3 : Type := Fin 3 → ℝ

/-- The python expression `np.array([[t, 0, 0], [0, t, 0], [0, 0, t]])`:
the isotropic tensor with diagonal entry `t`, built by every solver. -/
def isoDiag (t : ℂ) : M3 := Matrix.of ![![t, 0, 0], ![0, t, 0], ![0, 0, t]]

/-- Embedding of `np.dot` on real 3-vectors. -/
def dotv (a b : V3) : ℝ := ∑ i, a i * b i

/-- Embedding of `np.linalg.norm` on a real 3-vector (Euclidean norm). -/
noncomputable def vnorm (a : V3) : ℝ := Real.sqrt (∑ i, a i ^ 2)

/-- Embedding of `np.cross` on 3-vectors. -/
def cross3 (a b : V3) : V3 :=
  ![a 1 * b 2 - a 2 * b 1, a 2 * b 0 - a 0 * b 2, a 0 * b 1 - a 1 * b 0]

/-- Embedding of `np.outer` on real 3-vectors. -/
def outer3 (a b : V3) : M3R := Matrix.of fun i j => a i * b j

/-- Calculator.py lines 27-33: `initialise_unit_tensor`. -/
def initialise_unit_tensor : M3R := Matrix.of ![![1, 0, 0], ![0, 1, 0], ![0, 0, 1]]

/-- Calculator.py lines 35-41: `initialise_diagonal_tensor`. -/
def initialise_diagonal_tensor (reals : V3) : M3R :=
  Matrix.of ![![reals 0, 0, 0], ![0, reals 1, 0], ![0, 0, reals 2]]

/-- Calculator.py lines 49-54: `initialise_sphere_depolarisation_matrix`.
Division of a numpy matrix by the scalar `np.trace(tensor)` is embedded as
scalar multiplication by the inverse of the trace. -/
noncomputable def initialise_sphere_depolarisation_matrix : M3R :=
  let tensor := initialise_diagonal_tensor ![1/3, 1/3, 1/3]
  (Matrix.trace tensor)⁻¹ • tensor

/-- Calculator.py lines 56-61: `initialise_plate_depolarisation_matrix`. -/
noncomputable def initialise_plate_depolarisation_matrix (normal : V3) : M3R :=
  let n := (vnorm normal)⁻¹ • normal
  let tensor := outer3 n n
  (Matrix.trace tensor)⁻¹ • tensor

/-- Calculator.py lines 69-85 (repeated at 101-117): the seed direction used by
the needle and ellipsoid depolarisation matrices.  The coordinate axis with the
smallest absolute projection on `u` is picked, and the component along `u` is
projected out. -/
noncomputable def seed_dir (u : V3) : V3 :=
  let x : V3 := ![1, 0, 0]
  let y : V3 := ![0, 1, 0]
  let z : V3 := ![0, 0, 1]
  let xdotn := dotv x u
  let ydotn := dotv y u
  let zdotn := dotv z u
  if |xdotn| ≤ |ydotn| ∧ |xdotn| ≤ |zdotn| then x - xdotn • u
  else if |ydotn| ≤ |xdotn| ∧ |ydotn| ≤ |zdotn| then y - ydotn • u
  else z - zdotn • u

/-- Calculator.py lines 63-93: `initialise_needle_depolarisation_matrix`. -/
noncomputable def initialise_needle_depolarisation_matrix (unique : V3) : M3R :=
  let u := (vnorm unique)⁻¹ • unique
  let dir1raw := seed_dir u
  let dir1 := (vnorm dir1raw)⁻¹ • dir1raw
  let dir2raw := cross3 u dir1
  let dir2 := (vnorm dir2raw)⁻¹ • dir2raw
  let tensor := outer3 dir1 dir1 + outer3 dir2 dir2
  (Matrix.trace tensor)⁻¹ • tensor

/-- Calculator.py lines 95-137: `initialise_ellipsoid_depolarisation_matrix`. -/
noncomputable def initialise_ellipsoid_depolarisation_matrix (unique : V3)
    (aoverb : ℝ) : M3R :=
  let u := (vnorm unique)⁻¹ • unique
  let dir1raw := seed_dir u
  let dir1 := (vnorm dir1raw)⁻¹ • dir1raw
  let dir2raw := cross3 u dir1
  let dir2 := (vnorm dir2raw)⁻¹ • dir2raw
  let bovera := 1 / aoverb
  let small : ℝ := 1e-8
  let nz : ℝ :=
    if bovera < 1 - small then
      let e := Real.sqrt (1 - bovera * bovera)
      (1 - e * e) * (Real.log ((1 + e) / (1 - e)) - 2 * e) / (2 * e * e * e)
    else if bovera > 1 + small then
      let e := Real.sqrt (bovera * bovera - 1)
      (1 + e * e) * (e - Real.arctan e) / (e * e * e)
    else 1/3
  let nxy := (1 - nz) * 0.5
  let tensor := nz • outer3 u u + nxy • outer3 dir1 dir1 + nxy • outer3 dir2 dir2
  (Matrix.trace tensor)⁻¹ • tensor

/-- Calculator.py lines 185-207 (with the nonanalytic correction `Wm` zero):
reconstruction of the dynamical matrix `Dm = UT.T @ diag(sign(f) * f*f) @ UT`
from the signed frequencies and the mass-weighted normal-mode matrix `UT`
whose rows are the modes. -/
noncomputable def dynamical_matrix {n : ℕ} (frequencies : Fin n → ℝ)
    (UT : Matrix (Fin n) (Fin n) ℝ) : Matrix (Fin n) (Fin n) ℝ :=
  UTᵀ * Matrix.diagonal (fun i => Real.sign (frequencies i) *
    (frequencies i * frequencies i)) * UT

/-- Calculator.py lines 242-248: an eigenvalue `e` of the dynamical matrix is
mapped to `sqrt(e)` if `e >= 0` and `-sqrt(-e)` otherwise. -/
noncomputable def freq_from_eig (e : ℝ) : ℝ :=
  if 0 ≤ e then Real.sqrt e else -Real.sqrt (-e)

/-- Calculator.py lines 240-251: the sorted (`np.sort`, ascending) list of
frequencies produced from the eigenvalues `w` returned by `np.linalg.eigh`. -/
noncomputable def sorted_frequencies {n : ℕ} (w : Fin n → ℝ) : List ℝ :=
  Multiset.sort (LE.le : ℝ → ℝ → Prop)
    (Multiset.map freq_from_eig (Finset.univ.val.map w))

/-- Calculator.py line 383: the per-mode denominator
`np.complex((v*v - f*f), -sigma*f)` of `dielectric_contribution`. -/
def diel_denominator (v sigma f : ℝ) : ℂ := ⟨v * v - f * f, -(sigma * f)⟩

/-- Calculator.py lines 372-384: `dielectric_contribution`. -/
noncomputable def dielectric_contribution (f : ℝ) (modes : List ℕ)
    (frequencies sigmas : ℕ → ℝ) (strengths : ℕ → M3) (volume : ℝ) : M3 :=
  let dielectric := (modes.map fun mode =>
    (diel_denominator (frequencies mode) (sigmas mode) f)⁻¹ • strengths mode).sum
  ((4 * Real.pi / volume : ℝ) : ℂ) • dielectric

/-- Calculator.py lines 400-410: `averaged_permittivity`. -/
noncomputable def averaged_permittivity (dielectric_medium dielecv : M3)
    (shape : String) (L : M3) (vf : ℂ) : M3 :=
  let effd := vf • dielecv + (1 - vf) • dielectric_medium
  let trace := Matrix.trace effd / 3
  isoDiag trace

/-- Calculator.py lines 412-425: `balan`. -/
noncomputable def balan (dielectric_medium dielecv : M3)
    (shape : String) (L : M3) (vf : ℂ) : M3 :=
  let unit : M3 := 1
  let dielecvm1 := dielecv - unit
  let deformation :=
    dielectric_medium * (dielectric_medium + L * (dielecv - dielectric_medium))⁻¹
  let effd := unit + deformation * dielecvm1
  let trace := vf * Matrix.trace effd / 3
  isoDiag trace

/-- Calculator.py lines 427-448: `maxwell` (Maxwell-Garnett). -/
noncomputable def maxwell (dielectric_medium dielecv : M3)
    (shape : String) (L : M3) (vf : ℂ) : M3 :=
  let unit : M3 := 1
  let emedium := Matrix.trace dielectric_medium / 3
  let nalpha := (emedium * vf) •
    ((dielecv - dielectric_medium) *
      (dielectric_medium + L * (dielecv - dielectric_medium))⁻¹)
  let nalphal := (emedium⁻¹ • nalpha) * L
  let nalpha2 := (Matrix.trace nalpha / 3) • unit
  let nalphal2 := (Matrix.trace nalphal / 3) • unit
  let polarisation := (unit - nalphal2)⁻¹ * nalpha2
  let effd := dielectric_medium + polarisation
  let trace := Matrix.trace effd / 3
  isoDiag trace

/-- Calculator.py lines 450-484: `maxwell_sihvola`. -/
noncomputable def maxwell_sihvola (dielectric_medium dielecv : M3)
    (shape : String) (L : M3) (vf : ℂ) : M3 :=
  let unit : M3 := 1
  let Me := dielectric_medium
  let Mem1 := 3 / Matrix.trace Me
  let Mi := dielecv
  let nA := vf • ((Mi - Me) * (unit + Mem1 • (L * (Mi - Me)))⁻¹)
  let nAL := nA * L
  let nA2 := (Matrix.trace nA / 3) • unit
  let nAL2 := (Matrix.trace nAL / 3 * Mem1) • unit
  let pol := (unit - nAL2)⁻¹ * nA2
  let effd := dielectric_medium + pol
  let trace := Matrix.trace effd / 3
  isoDiag trace

/-- Calculator.py lines 492-514: `coherent2`. -/
noncomputable def coherent2 (dielectric_medium dielectric_apparent dielecv : M3)
    (shape : String) (L : M3) (vf : ℂ) : M3 :=
  let unit : M3 := 1
  let emedium := Matrix.trace dielectric_medium / 3
  let eapparent := Matrix.trace dielectric_apparent / 3
  let nalpha := (emedium * vf) •
    ((dielecv - dielectric_medium) *
      (dielectric_medium + L * (dielecv - dielectric_medium))⁻¹)
  let nalphal := (eapparent⁻¹ • nalpha) * L
  let nalpha2 := (Matrix.trace nalpha / 3) • unit
  let nalphal2 := (Matrix.trace nalphal / 3) • unit
  let polarisation := (unit - nalphal2)⁻¹ * nalpha2
  let effd := dielectric_medium + polarisation
  let trace := Matrix.trace effd / 3
  isoDiag trace

/-- Calculator.py lines 486-490: `coherent`, ten damped fixed-point steps. -/
noncomputable def coherent (dielectric_medium dielecv : M3) (shape : String)
    (L : M3) (vf : ℂ) (dielectric_apparent : M3) : M3 :=
  (fun d => (0.1 : ℂ) • d +
    (0.9 : ℂ) • coherent2 dielectric_medium d dielecv shape L vf)^[10]
    dielectric_apparent

/-- Calculator.py lines 569-572: `average_tensor`. -/
noncomputable def average_tensor (t : M3) : M3 := isoDiag (Matrix.trace t / 3)

/-- Embedding of `np.linalg.norm` of a 3x3 complex matrix (Frobenius norm). -/
noncomputable def frob (m : M3) : ℝ :=
  Real.sqrt (∑ i, ∑ j, Complex.normSq (m i j))

/-- Calculator.py lines 539, 580 and 609: the reconstruction of the complex
trace from the two real optimisation variables,
`complex(variables[0], np.exp(variables[1]) - 1.0)`. -/
noncomputable def brug_reconstruct_trace (v : ℝ × ℝ) : ℂ :=
  ⟨v.1, Real.exp v.2 - 1⟩

/-- Calculator.py lines 516-541: `bruggeman_minimise`.  The call to
`scipy.optimize.minimize` is modelled by an arbitrary `minimizer` function
mapping the initial pair of real variables to the pair returned. -/
noncomputable def bruggeman_minimise (minimizer : ℝ × ℝ → ℝ × ℝ)
    (eps1 eps2 : M3) (shape : String) (L : M3) (f2 : ℂ) (epsbr : M3) : M3 :=
  let trace := Matrix.trace epsbr / 3
  let vars := (trace.re, Real.log (1 + |trace.im|))
  let sol := minimizer vars
  let trace2 := brug_reconstruct_trace sol
  isoDiag trace2

/-- Calculator.py lines 603-637: `_brug_minimise_tensor` (the objective handed
to the optimiser; the `fr`/`fi` accumulators of lines 627-632 are dead code and
omitted). -/
noncomputable def brug_minimise_tensor (vars : ℝ × ℝ) (eps1 eps2 : M3)
    (shape : String) (L : M3) (f1 : ℂ) : ℝ :=
  let trace := brug_reconstruct_trace vars
  let epsbr := isoDiag trace
  let f2 := 1 - f1
  let b1 := average_tensor (L * (eps1 - epsbr))
  let b2 := average_tensor (L * (eps2 - epsbr))
  let a1 := (epsbr + b1)⁻¹
  let a2 := (epsbr + b2)⁻¹
  let alpha1 := average_tensor ((eps1 - epsbr) * a1)
  let alpha2 := average_tensor ((eps2 - epsbr) * a2)
  let error := frob (f1 • alpha1 + f2 • alpha2)
  1 + error

/-- Calculator.py lines 639-661: `_brug_iter_error`. -/
noncomputable def brug_iter_error (epsbr eps1 eps2 : M3) (shape : String)
    (L : M3) (f1 : ℂ) : M3 × ℝ :=
  let f2 := 1 - f1
  let leps1 := average_tensor (L * (eps1 - epsbr))
  let leps2 := average_tensor (L * (eps2 - epsbr))
  let a1 := (epsbr + leps1)⁻¹
  let a2 := (epsbr + leps2)⁻¹
  let eps1av := average_tensor eps1
  let eps2av := average_tensor eps2
  let alpha1 := (eps1av - epsbr) * a1
  let alpha2 := (eps2av - epsbr) * a2
  let error := frob (f1 • alpha1 + f2 • alpha2)
  let m1 := f1 • (eps1 * a1) + f2 • (eps2 * a2)
  let m2 := (f1 • a1 + f2 • a2)⁻¹
  let epsbr2 := m1 * m2
  (average_tensor epsbr2, error)

/-- Calculator.py lines 556-565: the `while not converged` loop of
`bruggeman_iter`.  `niters` is the counter value on entry; the returned
natural number is the final value of `niters`, i.e. the number of executions
of the loop body (each body runs `_brug_iter_error` once). -/
noncomputable def bruggeman_loop (eps1 eps2 : M3) (shape : String) (L : M3)
    (f1 : ℂ) (niters : ℕ) (epsbr : M3) : M3 × ℕ :=
  if h : |(brug_iter_error epsbr eps1 eps2 shape L f1).2| < 1e-8 ∨
      niters + 1 > 3000 then
    ((brug_iter_error epsbr eps1 eps2 shape L f1).1, niters + 1)
  else
    bruggeman_loop eps1 eps2 shape L f1 (niters + 1)
      (brug_iter_error epsbr eps1 eps2 shape L f1).1
termination_by 3001 - niters
decreasing_by
  push_neg at h
  omega

/-- Calculator.py lines 543-567: `bruggeman_iter`. -/
noncomputable def bruggeman_iter (eps1 eps2 : M3) (shape : String) (L : M3)
    (f2 : ℂ) (epsbr : M3) : M3 :=
  let f1 := 1 - f2
  average_tensor (bruggeman_loop eps1 eps2 shape L f1 0 epsbr).1

/-- Calculator.py lines 663-684: `calculate_refractive_index` (without the
debug printing).  `np.sqrt` of a complex number is the principal square root,
the complex power `trace ^ (1/2)`; `cmath.rect(-r, phase)` with
`(r, phase) = cmath.polar(solution1)` is `-r * exp(i * phase)`. -/
noncomputable def calculate_refractive_index (dielectric : M3) : ℂ :=
  let trace := Matrix.trace dielectric / 3
  let solution1 := trace ^ (1/2 : ℂ)
  let r := Complex.abs solution1
  let phase := solution1.arg
  let solution2 := (↑(-r) : ℂ) * Complex.exp (phase * Complex.I)
  if solution2.im < solution1.im then solution1 else solution2

/-- The homogenisation method names accepted by
`solve_effective_medium_equations` (lines 759-775), including the
abbreviation `ap` for `averagedpermittivity`. -/
def knownMethods : List String :=
  ["balan", "ap", "averagedpermittivity", "maxwell", "maxwell_sihvola",
   "coherent", "bruggeman_minimise", "bruggeman", "bruggeman_iter"]

/-- Calculator.py lines 756-790: `solve_effective_medium_equations`.  The
call parameters are passed positionally; the third entry of the tuple is
shadowed by the ninth (both are unpacked into `dielecv`), so only the ninth is
used.  The `exit(1)` on an unknown method is modelled as `none`; every
recognised method yields `some` result tuple. -/
noncomputable def solve_effective_medium_equations (minimizer : ℝ × ℝ → ℝ × ℝ)
    (v vau : ℝ) (dielecv0 : M3) (method : String) (vf : ℝ) (vf_type : String)
    (nplot : ℕ) (dielectric_medium dielecv : M3) (shape : String)
    (data : String) (L : M3) (concentration : ℝ) :
    Option (ℝ × ℕ × String × String × String × String × ℂ × ℝ × ℝ) :=
  let finish : M3 → ℝ × ℕ × String × String × String × String × ℂ × ℝ × ℝ :=
    fun effdielec =>
      let trace := (effdielec 0 0 + effdielec 1 1 + effdielec 2 2) / 3
      let refractive_index := calculate_refractive_index effdielec
      let absorption_coefficient :=
        v * (4 * Real.pi) * refractive_index.im * Real.logb 10 (Real.exp 1)
      let molar_absorption_coefficient :=
        absorption_coefficient / concentration / vf
      (v, nplot, method, vf_type, shape, data, trace,
        absorption_coefficient, molar_absorption_coefficient)
  if method = "balan" then
    some (finish (balan dielectric_medium dielecv shape L (vf : ℂ)))
  else if method = "ap" ∨ method = "averagedpermittivity" then
    some (finish (averaged_permittivity dielectric_medium dielecv shape L (vf : ℂ)))
  else if method = "maxwell" then
    some (finish (maxwell dielectric_medium dielecv shape L (vf : ℂ)))
  else if method = "maxwell_sihvola" then
    some (finish (maxwell_sihvola dielectric_medium dielecv shape L (vf : ℂ)))
  else if method = "coherent" then
    some (finish (coherent dielectric_medium dielecv shape L (vf : ℂ)
      (maxwell dielectric_medium dielecv shape L (vf : ℂ))))
  else if method = "bruggeman_minimise" then
    some (finish (bruggeman_minimise minimizer dielectric_medium dielecv shape L
      (vf : ℂ) (maxwell dielectric_medium dielecv shape L (vf : ℂ))))
  else if method = "bruggeman" ∨ method = "bruggeman_iter" then
    some (finish (bruggeman_iter dielectric_medium dielecv shape L
      (vf : ℂ) (maxwell dielectric_medium dielecv shape L (vf : ℂ))))
  else
    none

/-! ### Helper lemmas about isotropic (scalar multiple of identity) tensors -/

theorem isoDiag_eq_smul_one (t : ℂ) : isoDiag t = t • (1 : M3) := by
  ext i j
  fin_cases i <;> fin_cases j <;>
    simp [isoDiag, Matrix.one_apply, Matrix.vecHead, Matrix.vecTail]

theorem smul_one_mul_smul_one (x y : ℂ) :
    (x • (1 : M3)) * (y • (1 : M3)) = (x * y) • (1 : M3) := by
  rw [smul_mul_assoc, mul_smul_comm, one_mul, smul_smul]

theorem smul_one_inv {x : ℂ} (hx : x ≠ 0) :
    (x • (1 : M3))⁻¹ = x⁻¹ • (1 : M3) := by
  apply Matrix.inv_eq_right_inv
  rw [smul_one_mul_smul_one, mul_inv_cancel₀ hx, one_smul]

theorem trace_smul_one (x : ℂ) : Matrix.trace (x • (1 : M3)) = 3 * x := by
  rw [Matrix.trace_smul, Matrix.trace_one]
  simp [mul_comm]

theorem average_tensor_smul_one (x : ℂ) :
    average_tensor (x • (1 : M3)) = x • (1 : M3) := by
  rw [average_tensor, trace_smul_one, isoDiag_eq_smul_one]
  congr 1
  field_simp

theorem frob_smul_one (x : ℂ) :
    frob (x • (1 : M3)) = Real.sqrt (3 * Complex.normSq x) := by
  unfold frob
  congr 1
  simp [Fin.sum_univ_three, Matrix.one_apply]
  ring

/-! ### C1 : behaviour of the closed-form solvers at volume fraction 0 -/

/-- C1 counterexample: with volume fraction exactly 0 and host and inclusion
both the identity tensor, `balan` returns the zero tensor, not the host — the
factor `vf * trace(effd) / 3` is zero whatever the host is. -/
theorem balan_vf_zero_counterexample :
    balan 1 1 "sphere" ((1/3 : ℂ) • 1) 0 = 0 ∧ (0 : M3) ≠ 1 := by
  constructor
  · unfold balan
    simp [isoDiag_eq_smul_one]
  · intro h
    have h0 := congrFun (congrFun h 0) 0
    simp [Matrix.one_apply] at h0

/-- C1 (amended): with volume fraction exactly 0, `averaged_permittivity` and
`maxwell` return the isotropic average `(trace(host)/3) · I` of the host — and
hence the host itself exactly when the host is isotropic — while `balan`
returns the zero tensor.  The nonzero-trace and invertibility hypotheses keep
the modelled python evaluation free of `0/0` and singular-matrix failures. -/
theorem vf_zero_behaviour (em dv : M3) (shape : String) (L : M3)
    (htr : Matrix.trace em ≠ 0)
    (hinv : IsUnit (em + L * (dv - em))) :
    averaged_permittivity em dv shape L 0 = (Matrix.trace em / 3) • 1 ∧
    balan em dv shape L 0 = 0 ∧
    maxwell em dv shape L 0 = (Matrix.trace em / 3) • 1 := by
  refine ⟨?_, ?_, ?_⟩
  · unfold averaged_permittivity
    simp [isoDiag_eq_smul_one]
  · unfold balan
    simp [isoDiag_eq_smul_one]
  · unfold maxwell
    simp [isoDiag_eq_smul_one]

/-- C1 witness: the hypotheses of `vf_zero_behaviour` hold at the identity
host, zero inclusion and the sphere depolarisation tensor. -/
theorem vf_zero_behaviour_witness :
    Matrix.trace (1 : M3) ≠ 0 ∧
    IsUnit ((1 : M3) + ((1/3 : ℂ) • 1) * ((0 : M3) - 1)) ∧
    maxwell 1 0 "sphere" ((1/3 : ℂ) • 1) 0 = (Matrix.trace (1 : M3) / 3) • 1 := by
  have htr : Matrix.trace (1 : M3) ≠ 0 := by
    rw [Matrix.trace_one]
    norm_num
  have hmat : (1 : M3) + ((1/3 : ℂ) • 1) * ((0 : M3) - 1) = (2/3 : ℂ) • 1 := by
    rw [zero_sub, Matrix.mul_neg, Matrix.mul_one]
    nth_rewrite 1 [show (1 : M3) = (1 : ℂ) • 1 from (one_smul _ _).symm]
    rw [← sub_eq_add_neg, ← sub_smul]
    norm_num
  have hinv : IsUnit ((1 : M3) + ((1/3 : ℂ) • 1) * ((0 : M3) - 1)) := by
    rw [hmat]
    have hv : Invertible ((2/3 : ℂ) • (1 : M3)) := by
      apply Matrix.invertibleOfRightInverse _ ((3/2 : ℂ) • (1 : M3))
      rw [smul_one_mul_smul_one]
      norm_num
    exact isUnit_of_invertible _
  exact ⟨htr, hinv, (vf_zero_behaviour 1 0 "sphere" ((1/3 : ℂ) • 1) htr hinv).2.2⟩

/-! ### C7 : Maxwell-Garnett at zero contrast -/

theorem maxwell_self (em : M3) (shape : String) (L : M3) (vf : ℂ) :
    maxwell em em shape L vf = (Matrix.trace em / 3) • 1 := by
  unfold maxwell
  simp [isoDiag_eq_smul_one]

/-- C7 counterexample: the invertible host `diag(1,1,4)` (inverse exhibited)
is not returned by `maxwell` at zero contrast: the result is the isotropic
average `2·I`, whose (2,2) entry is 2, not 4. -/
theorem maxwell_self_counterexample :
    Matrix.diagonal ![1, 1, (4 : ℂ)] * Matrix.diagonal ![1, 1, (4 : ℂ)⁻¹] = 1 ∧
    maxwell (Matrix.diagonal ![1, 1, (4 : ℂ)]) (Matrix.diagonal ![1, 1, (4 : ℂ)])
      "sphere" ((1/3 : ℂ) • 1) (1/2) ≠ Matrix.diagonal ![1, 1, (4 : ℂ)] := by
  constructor
  · ext i j
    rw [Matrix.mul_apply]
    fin_cases i <;> fin_cases j <;>
      simp [Fin.sum_univ_three, Matrix.diagonal_apply, Matrix.one_apply]
  · have htr : Matrix.trace (Matrix.diagonal ![1, 1, (4 : ℂ)]) = 6 := by
      rw [Matrix.trace_diagonal, Fin.sum_univ_three]
      norm_num
    rw [maxwell_self, htr]
    intro h
    have h22 := congrFun (congrFun h 2) 2
    simp [Matrix.one_apply, Matrix.diagonal_apply] at h22
    norm_num at h22

/-- C7 (amended): for every host tensor that is invertible and has nonzero
trace, every shape, depolarisation tensor and volume fraction, `maxwell` with
inclusion equal to the host returns the isotropic average
`(trace(host)/3) · I` of the host — equal to the host exactly when the host is
isotropic.  (The hypotheses keep the modelled python evaluation free of `0/0`
and singular-matrix failures; the zero-contrast value itself does not depend
on them.) -/
theorem maxwell_zero_contrast (em : M3) (shape : String) (L : M3) (vf : ℂ)
    (hu : IsUnit em) (htr : Matrix.trace em ≠ 0) :
    maxwell em em shape L vf = (Matrix.trace em / 3) • 1 :=
  maxwell_self em shape L vf

/-- C7 witness: the hypotheses of `maxwell_zero_contrast` hold at the identity
host. -/
theorem maxwell_zero_contrast_witness :
    IsUnit (1 : M3) ∧ Matrix.trace (1 : M3) ≠ 0 ∧
    maxwell 1 1 "needle" ((1/3 : ℂ) • 1) (1/2) = (Matrix.trace (1 : M3) / 3) • 1 := by
  have htr : Matrix.trace (1 : M3) ≠ 0 := by
    rw [Matrix.trace_one]
    norm_num
  exact ⟨isUnit_one, htr,
    maxwell_zero_contrast 1 "needle" ((1/3 : ℂ) • 1) (1/2) isUnit_one htr⟩

/-! ### C2, C9 : refractive index branch selection -/

theorem sq_cpow_half (z : ℂ) : (z ^ (1/2 : ℂ)) ^ 2 = z := by
  rcases eq_or_ne z 0 with hz | hz
  · subst hz
    rw [Complex.zero_cpow (by norm_num : (1/2 : ℂ) ≠ 0)]
    norm_num
  · have h := @Complex.cpow_nat_inv_pow z 2 (by norm_num)
    rw [show ((2 : ℕ) : ℂ)⁻¹ = (1/2 : ℂ) by push_cast; norm_num] at h
    exact_mod_cast h

/-- The second candidate root, `cmath.rect(-r, phase)` for
`(r, phase) = cmath.polar(z)`, is the negation of `z`. -/
theorem rect_neg_abs_arg (z : ℂ) :
    (↑(-(Complex.abs z)) : ℂ) * Complex.exp (z.arg * Complex.I) = -z := by
  push_cast
  rw [neg_mul, Complex.abs_mul_exp_arg_mul_I]

/-- C2: `calculate_refractive_index` returns one of the two complex square
roots of `trace/3` (its square is exactly `trace/3`); the root returned is the
one whose imaginary part is the larger of the two, so the imaginary part of
the result is always nonnegative. -/
theorem refractive_index_branch (dielectric : M3) :
    calculate_refractive_index dielectric ^ 2 = Matrix.trace dielectric / 3 ∧
    (calculate_refractive_index dielectric =
        (Matrix.trace dielectric / 3) ^ (1/2 : ℂ) ∨
      calculate_refractive_index dielectric =
        -((Matrix.trace dielectric / 3) ^ (1/2 : ℂ))) ∧
    (calculate_refractive_index dielectric).im =
      max ((Matrix.trace dielectric / 3) ^ (1/2 : ℂ)).im
        (-((Matrix.trace dielectric / 3) ^ (1/2 : ℂ))).im ∧
    0 ≤ (calculate_refractive_index dielectric).im := by
  simp only [calculate_refractive_index, rect_neg_abs_arg]
  set s := (Matrix.trace dielectric / 3) ^ (1/2 : ℂ) with hs
  split_ifs with h
  · rw [Complex.neg_im] at h
    refine ⟨sq_cpow_half _, Or.inl rfl, ?_, ?_⟩
    · rw [Complex.neg_im]
      exact (max_eq_left (le_of_lt h)).symm
    · linarith
  · rw [Complex.neg_im, not_lt] at h
    refine ⟨?_, Or.inr rfl, ?_, ?_⟩
    · rw [neg_pow, sq_cpow_half]
      norm_num
    · rw [Complex.neg_im]
      exact (max_eq_right h).symm
    · rw [Complex.neg_im]
      linarith

/-- C9: for a dielectric tensor whose trace is real and strictly positive,
both candidate roots are real, the strict comparison `imag1 > imag2` fails,
and `calculate_refractive_index` returns the non-positive real root
`-sqrt(trace/3)`. -/
theorem refractive_index_real_positive_trace (dielectric : M3)
    (hre : 0 < (Matrix.trace dielectric).re)
    (him : (Matrix.trace dielectric).im = 0) :
    calculate_refractive_index dielectric =
      -((Real.sqrt ((Matrix.trace dielectric).re / 3) : ℝ) : ℂ) ∧
    (calculate_refractive_index dielectric).re ≤ 0 ∧
    (calculate_refractive_index dielectric).im = 0 := by
  set r := (Matrix.trace dielectric).re with hr
  have htrace : Matrix.trace dielectric = (r : ℂ) := by
    apply Complex.ext
    · simp [hr]
    · simp [him]
  have hdiv : Matrix.trace dielectric / 3 = ((r / 3 : ℝ) : ℂ) := by
    rw [htrace]
    push_cast
    ring
  have hs : ((r / 3 : ℝ) : ℂ) ^ (1/2 : ℂ) = ((Real.sqrt (r/3) : ℝ) : ℂ) := by
    have h0 : (0:ℝ) ≤ r / 3 := by linarith
    rw [Real.sqrt_eq_rpow]
    rw [show ((1:ℂ)/2) = ((1/2 : ℝ) : ℂ) by push_cast; norm_num]
    exact (Complex.ofReal_cpow h0 (1/2)).symm
  have hcond : ¬((-((Real.sqrt (r/3) : ℝ) : ℂ)).im < ((Real.sqrt (r/3) : ℝ) : ℂ).im) := by
    simp
  simp only [calculate_refractive_index, rect_neg_abs_arg, hdiv, hs]
  rw [if_neg hcond]
  refine ⟨rfl, ?_, ?_⟩
  · simp
    positivity
  · simp

/-- C9 witness: the tensor `3·I` has real strictly positive trace 9, and the
refractive index returned for it is `-sqrt(3)`. -/
theorem refractive_index_real_positive_trace_witness :
    0 < (Matrix.trace ((3 : ℂ) • 1 : M3)).re ∧
    (Matrix.trace ((3 : ℂ) • 1 : M3)).im = 0 ∧
    calculate_refractive_index ((3 : ℂ) • 1) =
      -((Real.sqrt ((Matrix.trace ((3 : ℂ) • 1 : M3)).re / 3) : ℝ) : ℂ) := by
  have h9 : Matrix.trace ((3 : ℂ) • 1 : M3) = 9 := by
    rw [trace_smul_one]
    norm_num
  refine ⟨?_, ?_, ?_⟩
  · rw [h9]
    norm_num
  · rw [h9]
    simp
  · exact (refractive_index_real_positive_trace ((3 : ℂ) • 1)
      (by rw [h9]; norm_num) (by rw [h9]; simp)).1

/-! ### C6 : sign of the reconstructed imaginary part -/

theorem brug_reconstruct_trace_im (v : ℝ × ℝ) :
    (brug_reconstruct_trace v).im = Real.exp v.2 - 1 := rfl

/-- C6 counterexample: the optimiser is free to return any pair of reals; at
the outcome `(0, -1)` the reconstructed effective permittivity has imaginary
part `exp(-1) - 1 < 0`, and `bruggeman_minimise` driven by such an optimiser
returns a tensor whose (0,0) entry has strictly negative imaginary part. -/
theorem brug_reconstruct_negative_imag_counterexample :
    (brug_reconstruct_trace (0, -1)).im < 0 ∧
    ((bruggeman_minimise (fun _ => (0, -1)) 1 1 "sphere" ((1/3 : ℂ) • 1)
      (1/2) 1) 0 0).im < 0 := by
  have hexp : Real.exp (-1) < 1 := by
    have h := Real.exp_lt_exp.mpr (show (-1 : ℝ) < 0 by norm_num)
    rwa [Real.exp_zero] at h
  have h1 : (brug_reconstruct_trace (0, -1)).im < 0 := by
    rw [brug_reconstruct_trace_im]
    show Real.exp (-1) - 1 < 0
    linarith
  refine ⟨h1, ?_⟩
  have hentry : (bruggeman_minimise (fun _ => (0, -1)) 1 1 "sphere"
      ((1/3 : ℂ) • 1) (1/2) 1) 0 0 = brug_reconstruct_trace (0, -1) := by
    simp [bruggeman_minimise, isoDiag]
  rw [hentry]
  exact h1

/-- C6 (amended): for every pair of real optimisation variables the minimizer
can return, the effective permittivity reconstructed as
`complex(v0, exp(v1) - 1)` has imaginary part strictly greater than `-1`; it
is nonnegative whenever the second variable is nonnegative (as is the case
for the starting value `log(1 + |Im|)`), but not in general. -/
theorem brug_reconstruct_imag_bound (v0 v1 : ℝ) :
    -1 < (brug_reconstruct_trace (v0, v1)).im ∧
    (0 ≤ v1 → 0 ≤ (brug_reconstruct_trace (v0, v1)).im) := by
  rw [brug_reconstruct_trace_im]
  constructor
  · have := Real.exp_pos v1
    show -1 < Real.exp v1 - 1
    linarith
  · intro h
    have h1 : Real.exp 0 ≤ Real.exp v1 := Real.exp_le_exp.mpr h
    rw [Real.exp_zero] at h1
    show 0 ≤ Real.exp v1 - 1
    linarith

/-- C6 witness: at the optimiser outcome `(0, 0)` the second variable is
nonnegative and the reconstructed imaginary part is nonnegative. -/
theorem brug_reconstruct_imag_bound_witness :
    (0 : ℝ) ≤ 0 ∧ 0 ≤ (brug_reconstruct_trace (0, 0)).im :=
  ⟨le_rfl, (brug_reconstruct_imag_bound 0 0).2 le_rfl⟩

/-! ### C10 : the Lorentzian denominators of `dielectric_contribution` -/

theorem diel_denominator_re (v sigma f : ℝ) :
    (diel_denominator v sigma f).re = v * v - f * f := rfl

theorem diel_denominator_im (v sigma f : ℝ) :
    (diel_denominator v sigma f).im = -(sigma * f) := rfl

/-- C10: `dielectric_contribution` divides by a nonzero denominator for every
selected mode `m` with `sigmas[m]*f ≠ 0` or `frequencies[m]² ≠ f²`; and the
denominator is exactly zero for a mode with `sigma = 0` evaluated exactly at
its own frequency (`v = f = 1`). -/
theorem dielectric_denominator_safety :
    (∀ (f : ℝ) (modes : List ℕ) (frequencies sigmas : ℕ → ℝ),
      (∀ m ∈ modes, sigmas m * f ≠ 0 ∨ (frequencies m) ^ 2 ≠ f ^ 2) →
      ∀ m ∈ modes, diel_denominator (frequencies m) (sigmas m) f ≠ 0) ∧
    diel_denominator 1 0 1 = 0 := by
  constructor
  · intro f modes frequencies sigmas h m hm hz
    have hre := congrArg Complex.re hz
    have him := congrArg Complex.im hz
    rw [diel_denominator_re] at hre
    rw [diel_denominator_im] at him
    simp only [Complex.zero_re, Complex.zero_im, neg_eq_zero] at hre him
    rcases h m hm with hsf | hvf
    · exact hsf him
    · apply hvf
      rw [pow_two, pow_two]
      linarith
  · apply Complex.ext
    · rw [diel_denominator_re]
      simp
    · rw [diel_denominator_im]
      simp

/-- C10 witness: a mode with frequency 2 and damping 1, evaluated at `f = 1`,
satisfies the side condition and its denominator is nonzero. -/
theorem dielectric_denominator_safety_witness :
    (∀ m ∈ [0], (fun _ : ℕ => (1 : ℝ)) m * 1 ≠ 0 ∨
      ((fun _ : ℕ => (2 : ℝ)) m) ^ 2 ≠ (1 : ℝ) ^ 2) ∧
    diel_denominator 2 1 1 ≠ 0 := by
  have hcond : ∀ m ∈ [0], (fun _ : ℕ => (1 : ℝ)) m * 1 ≠ 0 ∨
      ((fun _ : ℕ => (2 : ℝ)) m) ^ 2 ≠ (1 : ℝ) ^ 2 := by
    intro m _
    left
    norm_num
  exact ⟨hcond, dielectric_denominator_safety.1 1 [0] (fun _ => 2) (fun _ => 1)
    hcond 0 (by simp)⟩

/-! ### C8 : method-name dispatch of the scan driver -/

/-- C8 counterexample: the method name `ap` is not among the eight enumerated
names, yet the scan driver produces a result for it (the code accepts `ap` as
an abbreviation for `averagedpermittivity`). -/
theorem solve_method_ap_counterexample :
    (solve_effective_medium_equations (fun p => p) 1 1 1 "ap" 1 "vf" 1 1 1
      "sphere" "d" 1 1).isSome = true ∧
    "ap" ∉ ["averagedpermittivity", "balan", "maxwell", "maxwell_sihvola",
      "coherent", "bruggeman_minimise", "bruggeman", "bruggeman_iter"] := by
  constructor
  · rfl
  · decide

/-- C8 (amended): the scan driver produces a result if and only if the method
name is one of the NINE accepted names — the eight enumerated ones plus the
abbreviation `ap`; for any other name it produces no result (the python code
reports the unknown method and calls `exit(1)`). -/
theorem solve_method_dispatch (minimizer : ℝ × ℝ → ℝ × ℝ) (v vau : ℝ)
    (dielecv0 : M3) (method : String) (vf : ℝ) (vf_type : String) (nplot : ℕ)
    (dielectric_medium dielecv : M3) (shape data : String) (L : M3)
    (concentration : ℝ) :
    (solve_effective_medium_equations minimizer v vau dielecv0 method vf
      vf_type nplot dielectric_medium dielecv shape data L
      concentration).isSome = true ↔ method ∈ knownMethods := by
  unfold solve_effective_medium_equations knownMethods
  split_ifs with h1 h2 h3 h4 h5 h6 h7 <;>
    simp [List.mem_cons] <;> tauto

/-! ### C4 : depolarisation tensors have trace 1 -/

theorem trace_inv_trace_smul (T : M3R) (h : Matrix.trace T ≠ 0) :
    Matrix.trace ((Matrix.trace T)⁻¹ • T) = 1 := by
  rw [Matrix.trace_smul, smul_eq_mul, inv_mul_cancel₀ h]

theorem trace_outer3 (a : V3) : Matrix.trace (outer3 a a) = ∑ i, a i ^ 2 := by
  simp [Matrix.trace, Matrix.diag, outer3, pow_two]

theorem sum_sq_pos (v : V3) (h : v ≠ 0) : 0 < ∑ i, v i ^ 2 := by
  rcases Function.ne_iff.mp h with ⟨i, hi⟩
  have hip : 0 < v i ^ 2 := by
    have : v i ≠ 0 := hi
    positivity
  exact Finset.sum_pos' (fun j _ => by positivity) ⟨i, Finset.mem_univ i, hip⟩

theorem vnorm_pos (v : V3) (h : v ≠ 0) : 0 < vnorm v :=
  Real.sqrt_pos.mpr (sum_sq_pos v h)

theorem sum_sq_normalize (v : V3) (h : v ≠ 0) :
    ∑ i, ((vnorm v)⁻¹ • v) i ^ 2 = 1 := by
  have hq : 0 < ∑ i, v i ^ 2 := sum_sq_pos v h
  have hs : vnorm v ^ 2 = ∑ i, v i ^ 2 := Real.sq_sqrt hq.le
  have hs0 : vnorm v ≠ 0 := (vnorm_pos v h).ne'
  simp only [Pi.smul_apply, smul_eq_mul, mul_pow]
  rw [← Finset.mul_sum, ← hs, inv_pow, inv_mul_cancel₀ (pow_ne_zero 2 hs0)]

theorem dotv_basis0 (u : V3) : dotv ![1, 0, 0] u = u 0 := by
  simp [dotv, Fin.sum_univ_three]

theorem dotv_basis1 (u : V3) : dotv ![0, 1, 0] u = u 1 := by
  simp [dotv, Fin.sum_univ_three]

theorem dotv_basis2 (u : V3) : dotv ![0, 0, 1] u = u 2 := by
  simp [dotv, Fin.sum_univ_three]

theorem dotv_smul_right (u w : V3) (c : ℝ) : dotv u (c • w) = c * dotv u w := by
  simp only [dotv, Pi.smul_apply, smul_eq_mul]
  rw [Finset.mul_sum]
  exact Finset.sum_congr rfl fun i _ => by ring

/-- Whatever the direction `u`, the seed direction produced by the needle and
ellipsoid constructions is nonzero: the branch taken always subtracts the
projection from a coordinate axis whose projection on `u` is minimal, and this
can vanish only if that axis is parallel to `u`, contradicting minimality. -/
theorem seed_dir_ne_zero (u : V3) : seed_dir u ≠ 0 := by
  unfold seed_dir
  simp only [dotv_basis0, dotv_basis1, dotv_basis2]
  split_ifs with hx hy
  · intro h
    have h0 := congrFun h 0
    have h1 := congrFun h 1
    simp only [Pi.sub_apply, Pi.smul_apply, smul_eq_mul, Pi.zero_apply,
      Matrix.cons_val_zero, Matrix.cons_val_one, Matrix.head_cons] at h0 h1
    have hne : u 0 ≠ 0 := by
      intro hz
      rw [hz] at h0
      norm_num at h0
    have hu1 : u 1 = 0 := by
      rcases mul_eq_zero.mp (by linarith : u 0 * u 1 = 0) with hc | hc
      · exact absurd hc hne
      · exact hc
    have := hx.1
    rw [hu1, abs_zero] at this
    exact hne (abs_nonpos_iff.mp this)
  · intro h
    have h1 := congrFun h 1
    have h2 := congrFun h 2
    simp only [Pi.sub_apply, Pi.smul_apply, smul_eq_mul, Pi.zero_apply,
      Matrix.cons_val_zero, Matrix.cons_val_one, Matrix.head_cons,
      Matrix.cons_val_two, Matrix.tail_cons] at h1 h2
    have hne : u 1 ≠ 0 := by
      intro hz
      rw [hz] at h1
      norm_num at h1
    have hu2 : u 2 = 0 := by
      rcases mul_eq_zero.mp (by linarith : u 1 * u 2 = 0) with hc | hc
      · exact absurd hc hne
      · exact hc
    have := hy.2
    rw [hu2, abs_zero] at this
    exact hne (abs_nonpos_iff.mp this)
  · intro h
    have h0 := congrFun h 0
    have h1 := congrFun h 1
    have h2 := congrFun h 2
    simp only [Pi.sub_apply, Pi.smul_apply, smul_eq_mul, Pi.zero_apply,
      Matrix.cons_val_zero, Matrix.cons_val_one, Matrix.head_cons,
      Matrix.cons_val_two, Matrix.tail_cons] at h0 h1 h2
    have hne : u 2 ≠ 0 := by
      intro hz
      rw [hz] at h2
      norm_num at h2
    have hu0 : u 0 = 0 := by
      rcases mul_eq_zero.mp (by linarith : u 2 * u 0 = 0) with hc | hc
      · exact absurd hc hne
      · exact hc
    have hu1 : u 1 = 0 := by
      rcases mul_eq_zero.mp (by linarith : u 2 * u 1 = 0) with hc | hc
      · exact absurd hc hne
      · exact hc
    apply hx
    rw [hu0, hu1, abs_zero]
    exact ⟨le_rfl, abs_nonneg _⟩

/-- For a unit vector `u`, the seed direction is orthogonal to `u`. -/
theorem dotv_seed_eq_zero (u : V3) (hu : ∑ i, u i ^ 2 = 1) :
    dotv u (seed_dir u) = 0 := by
  have hexp : u 0 ^ 2 + u 1 ^ 2 + u 2 ^ 2 = 1 := by
    rw [← hu]
    rw [Fin.sum_univ_three]
  unfold seed_dir
  simp only [dotv_basis0, dotv_basis1, dotv_basis2]
  split_ifs with h1 h2
  · simp only [dotv, Fin.sum_univ_three, Pi.sub_apply, Pi.smul_apply,
      smul_eq_mul, Matrix.cons_val_zero, Matrix.cons_val_one, Matrix.head_cons,
      Matrix.cons_val_two, Matrix.tail_cons]
    linear_combination (-(u 0)) * hexp
  · simp only [dotv, Fin.sum_univ_three, Pi.sub_apply, Pi.smul_apply,
      smul_eq_mul, Matrix.cons_val_zero, Matrix.cons_val_one, Matrix.head_cons,
      Matrix.cons_val_two, Matrix.tail_cons]
    linear_combination (-(u 1)) * hexp
  · simp only [dotv, Fin.sum_univ_three, Pi.sub_apply, Pi.smul_apply,
      smul_eq_mul, Matrix.cons_val_zero, Matrix.cons_val_one, Matrix.head_cons,
      Matrix.cons_val_two, Matrix.tail_cons]
    linear_combination (-(u 2)) * hexp

/-- The Lagrange identity for the embedded cross product. -/
theorem sum_sq_cross3 (a b : V3) :
    ∑ i, cross3 a b i ^ 2 =
      (∑ i, a i ^ 2) * (∑ i, b i ^ 2) - dotv a b ^ 2 := by
  simp only [cross3, dotv, Fin.sum_univ_three, Matrix.cons_val_zero,
    Matrix.cons_val_one, Matrix.head_cons, Matrix.cons_val_two, Matrix.tail_cons]
  ring

theorem trace_sphere_depolarisation :
    Matrix.trace initialise_sphere_depolarisation_matrix = 1 := by
  simp only [initialise_sphere_depolarisation_matrix]
  apply trace_inv_trace_smul
  simp [initialise_diagonal_tensor, Matrix.trace, Matrix.diag, Fin.sum_univ_three]
  norm_num

theorem trace_plate_depolarisation (normal : V3) (h : normal ≠ 0) :
    Matrix.trace (initialise_plate_depolarisation_matrix normal) = 1 := by
  simp only [initialise_plate_depolarisation_matrix]
  apply trace_inv_trace_smul
  rw [trace_outer3, sum_sq_normalize normal h]
  norm_num

theorem trace_needle_depolarisation (unique : V3) :
    Matrix.trace (initialise_needle_depolarisation_matrix unique) = 1 := by
  simp only [initialise_needle_depolarisation_matrix]
  apply trace_inv_trace_smul
  rw [Matrix.trace_add, trace_outer3, trace_outer3]
  rw [sum_sq_normalize _ (seed_dir_ne_zero _)]
  have h2 : (0:ℝ) ≤ ∑ i, ((vnorm (cross3 ((vnorm unique)⁻¹ • unique)
      ((vnorm (seed_dir ((vnorm unique)⁻¹ • unique)))⁻¹ •
        seed_dir ((vnorm unique)⁻¹ • unique))))⁻¹ •
      cross3 ((vnorm unique)⁻¹ • unique)
      ((vnorm (seed_dir ((vnorm unique)⁻¹ • unique)))⁻¹ •
        seed_dir ((vnorm unique)⁻¹ • unique))) i ^ 2 :=
    Finset.sum_nonneg fun i _ => sq_nonneg _
  linarith

theorem trace_ellipsoid_depolarisation (unique : V3) (aoverb : ℝ)
    (h : unique ≠ 0) :
    Matrix.trace (initialise_ellipsoid_depolarisation_matrix unique aoverb) = 1 := by
  have hu : ∑ i, ((vnorm unique)⁻¹ • unique) i ^ 2 = 1 := sum_sq_normalize unique h
  have hd1 : ∑ i, ((vnorm (seed_dir ((vnorm unique)⁻¹ • unique)))⁻¹ •
      seed_dir ((vnorm unique)⁻¹ • unique)) i ^ 2 = 1 :=
    sum_sq_normalize _ (seed_dir_ne_zero _)
  have hdot : dotv ((vnorm unique)⁻¹ • unique)
      ((vnorm (seed_dir ((vnorm unique)⁻¹ • unique)))⁻¹ •
        seed_dir ((vnorm unique)⁻¹ • unique)) = 0 := by
    rw [dotv_smul_right, dotv_seed_eq_zero _ hu, mul_zero]
  have hcross : ∑ i, cross3 ((vnorm unique)⁻¹ • unique)
      ((vnorm (seed_dir ((vnorm unique)⁻¹ • unique)))⁻¹ •
        seed_dir ((vnorm unique)⁻¹ • unique)) i ^ 2 = 1 := by
    rw [sum_sq_cross3, hu, hd1, hdot]
    norm_num
  have hcrossne : cross3 ((vnorm unique)⁻¹ • unique)
      ((vnorm (seed_dir ((vnorm unique)⁻¹ • unique)))⁻¹ •
        seed_dir ((vnorm unique)⁻¹ • unique)) ≠ 0 := by
    intro hz
    rw [hz] at hcross
    simp at hcross
  have hd2 : ∑ i, ((vnorm (cross3 ((vnorm unique)⁻¹ • unique)
      ((vnorm (seed_dir ((vnorm unique)⁻¹ • unique)))⁻¹ •
        seed_dir ((vnorm unique)⁻¹ • unique))))⁻¹ •
      cross3 ((vnorm unique)⁻¹ • unique)
      ((vnorm (seed_dir ((vnorm unique)⁻¹ • unique)))⁻¹ •
        seed_dir ((vnorm unique)⁻¹ • unique))) i ^ 2 = 1 :=
    sum_sq_normalize _ hcrossne
  simp only [initialise_ellipsoid_depolarisation_matrix]
  apply trace_inv_trace_smul
  rw [Matrix.trace_add, Matrix.trace_add, Matrix.trace_smul, Matrix.trace_smul,
    Matrix.trace_smul, trace_outer3, trace_outer3, trace_outer3, hu, hd1, hd2]
  simp only [smul_eq_mul, mul_one]
  ring_nf
  norm_num

/-- C4: for every shape — sphere, plate, needle, ellipsoid — every nonzero
direction vector and every positive aspect ratio, the depolarisation tensor
returned has trace exactly 1. -/
theorem depolarisation_trace_one (unique : V3) (aoverb : ℝ)
    (hdir : unique ≠ 0) (har : 0 < aoverb) :
    Matrix.trace initialise_sphere_depolarisation_matrix = 1 ∧
    Matrix.trace (initialise_plate_depolarisation_matrix unique) = 1 ∧
    Matrix.trace (initialise_needle_depolarisation_matrix unique) = 1 ∧
    Matrix.trace (initialise_ellipsoid_depolarisation_matrix unique aoverb) = 1 :=
  ⟨trace_sphere_depolarisation, trace_plate_depolarisation unique hdir,
    trace_needle_depolarisation unique,
    trace_ellipsoid_depolarisation unique aoverb hdir⟩

/-- C4 witness: the direction `(0,0,1)` is nonzero and the aspect ratio 2 is
positive; all four depolarisation tensors built from them have trace 1. -/
theorem depolarisation_trace_one_witness :
    (![0, 0, 1] : V3) ≠ 0 ∧ (0:ℝ) < 2 ∧
    Matrix.trace (initialise_ellipsoid_depolarisation_matrix ![0, 0, 1] 2) = 1 := by
  have hne : (![0, 0, 1] : V3) ≠ 0 := by
    intro h
    have := congrFun h 2
    norm_num at this
  exact ⟨hne, by norm_num,
    (depolarisation_trace_one ![0, 0, 1] 2 hne (by norm_num)).2.2.2⟩

/-! ### C3 : LO-TO round trip through the reconstructed dynamical matrix -/

theorem charpoly_conj_orth {n : ℕ} (M A : Matrix (Fin n) (Fin n) ℝ)
    (h : Mᵀ * M = 1) : (Mᵀ * A * M).charpoly = A.charpoly := by
  have hmap : Polynomial.C.mapMatrix (Mᵀ) * Polynomial.C.mapMatrix M =
      (1 : Matrix (Fin n) (Fin n) (Polynomial ℝ)) := by
    rw [← map_mul, h, map_one]
  have key : Matrix.charmatrix (Mᵀ * A * M) =
      Polynomial.C.mapMatrix (Mᵀ) * Matrix.charmatrix A *
        Polynomial.C.mapMatrix M := by
    unfold Matrix.charmatrix
    rw [map_mul, map_mul, Matrix.mul_sub, Matrix.sub_mul]
    congr 1
    have hc := (Matrix.scalar_commute (Polynomial.X : Polynomial ℝ)
      (fun r => Commute.all _ r) (Polynomial.C.mapMatrix (Mᵀ))).eq
    rw [← hc, Matrix.mul_assoc, hmap, Matrix.mul_one]
  unfold Matrix.charpoly
  rw [key, Matrix.det_mul, Matrix.det_mul]
  have hdet : (Polynomial.C.mapMatrix (Mᵀ)).det * (Polynomial.C.mapMatrix M).det
      = 1 := by
    rw [← Matrix.det_mul, hmap, Matrix.det_one]
  linear_combination (Matrix.charmatrix A).det * hdet

theorem charpoly_diagonal {n : ℕ} (d : Fin n → ℝ) :
    (Matrix.diagonal d).charpoly =
      ∏ i, (Polynomial.X - Polynomial.C (d i)) := by
  unfold Matrix.charpoly
  have hmat : Matrix.charmatrix (Matrix.diagonal d) =
      Matrix.diagonal (fun i => Polynomial.X - Polynomial.C (d i)) := by
    ext i j
    by_cases hij : i = j
    · subst hij
      simp
    · simp [Matrix.charmatrix_apply_ne _ _ _ hij, Matrix.diagonal_apply_ne _ hij]
  rw [hmat, Matrix.det_diagonal]

theorem freq_from_eig_sign_sq (x : ℝ) :
    freq_from_eig (Real.sign x * (x * x)) = x := by
  unfold freq_from_eig
  rcases lt_trichotomy x 0 with hx | hx | hx
  · have hxx : 0 < x * x := mul_pos_of_neg_of_neg hx hx
    rw [Real.sign_of_neg hx]
    rw [if_neg (by nlinarith)]
    have hneg : -(-1 * (x * x)) = x ^ 2 := by ring
    rw [hneg, Real.sqrt_sq_eq_abs, abs_of_neg hx, neg_neg]
  · subst hx
    rw [Real.sign_zero, zero_mul, if_pos le_rfl, Real.sqrt_zero]
  · have hxx : 0 < x * x := mul_pos hx hx
    rw [Real.sign_of_pos hx, one_mul, if_pos hxx.le]
    have : x * x = x ^ 2 := by ring
    rw [this, Real.sqrt_sq_eq_abs, abs_of_pos hx]

/-- C3: round trip of the LO-TO corrector with zero nonanalytic correction.
If `U` is an orthonormal mass-weighted eigenvector matrix, `D` the dynamical
matrix reconstructed from the signed frequencies `f` by
`D = Uᵀ · diag(sign f · f²) · U`, and `(w, V)` any eigendecomposition of `D`
as returned by `np.linalg.eigh` (i.e. `V` orthogonal with
`D = V · diag(w) · Vᵀ`), then mapping each eigenvalue through
`e ↦ sqrt e` (or `-sqrt(-e)` for negative `e`) and sorting ascending
reproduces the original frequency list sorted ascending. -/
theorem longitudinal_modes_roundtrip {n : ℕ} (f : Fin n → ℝ)
    (U : Matrix (Fin n) (Fin n) ℝ) (hU : Uᵀ * U = 1)
    (w : Fin n → ℝ) (V : Matrix (Fin n) (Fin n) ℝ) (hV : Vᵀ * V = 1)
    (hdec : dynamical_matrix f U = V * Matrix.diagonal w * Vᵀ) :
    sorted_frequencies w =
      Multiset.sort (LE.le : ℝ → ℝ → Prop) (Finset.univ.val.map f) := by
  have hVV : V * Vᵀ = 1 := Matrix.mul_eq_one_comm.mp hV
  have hD : dynamical_matrix f U =
      Uᵀ * Matrix.diagonal (fun i => Real.sign (f i) * (f i * f i)) * U := rfl
  have h1 : (dynamical_matrix f U).charpoly =
      (Matrix.diagonal (fun i => Real.sign (f i) * (f i * f i))).charpoly := by
    rw [hD]
    exact charpoly_conj_orth U _ hU
  have h2 : (V * Matrix.diagonal w * Vᵀ).charpoly =
      (Matrix.diagonal w).charpoly := by
    have h3 := charpoly_conj_orth (Vᵀ) (Matrix.diagonal w)
      (by rw [Matrix.transpose_transpose]; exact hVV)
    rwa [Matrix.transpose_transpose] at h3
  have hpoly : (∏ i, (Polynomial.X -
        Polynomial.C (Real.sign (f i) * (f i * f i)))) =
      ∏ i, (Polynomial.X - Polynomial.C (w i)) := by
    rw [← charpoly_diagonal, ← charpoly_diagonal, ← h1, hdec, h2]
  have hms : Finset.univ.val.map (fun i => Real.sign (f i) * (f i * f i)) =
      Finset.univ.val.map w := by
    have e1 : ((Finset.univ.val.map
          (fun i => Real.sign (f i) * (f i * f i))).map
            fun a => Polynomial.X - Polynomial.C a).prod =
        ((Finset.univ.val.map w).map
            fun a => Polynomial.X - Polynomial.C a).prod := by
      rw [Multiset.map_map, Multiset.map_map]
      rw [show ((fun a => Polynomial.X - Polynomial.C a) ∘
          fun i => Real.sign (f i) * (f i * f i)) =
            fun i => Polynomial.X -
              Polynomial.C (Real.sign (f i) * (f i * f i)) from rfl]
      rw [show ((fun a => Polynomial.X - Polynomial.C a) ∘ w) =
            fun i => Polynomial.X - Polynomial.C (w i) from rfl]
      rw [← Finset.prod_eq_multiset_prod, ← Finset.prod_eq_multiset_prod]
      exact hpoly
    have e2 := congrArg Polynomial.roots e1
    rwa [Polynomial.roots_multiset_prod_X_sub_C,
      Polynomial.roots_multiset_prod_X_sub_C] at e2
  have hmap : Multiset.map freq_from_eig (Finset.univ.val.map w) =
      Finset.univ.val.map f := by
    rw [← hms, Multiset.map_map]
    exact Multiset.map_congr rfl fun i _ => freq_from_eig_sign_sq (f i)
  unfold sorted_frequencies
  rw [hmap]

/-- C3 witness: for the single zero frequency, the identity eigenvector matrix
and the zero eigenvalue, all hypotheses of the round-trip theorem hold. -/
theorem longitudinal_modes_roundtrip_witness :
    ((1 : Matrix (Fin 1) (Fin 1) ℝ)ᵀ * 1 = 1) ∧
    (dynamical_matrix ![0] (1 : Matrix (Fin 1) (Fin 1) ℝ) =
      1 * Matrix.diagonal ![0] * (1 : Matrix (Fin 1) (Fin 1) ℝ)ᵀ) ∧
    sorted_frequencies ![0] =
      Multiset.sort (LE.le : ℝ → ℝ → Prop)
        (Finset.univ.val.map (![0] : Fin 1 → ℝ)) := by
  have hU : (1 : Matrix (Fin 1) (Fin 1) ℝ)ᵀ * 1 = 1 := by
    rw [Matrix.transpose_one, Matrix.mul_one]
  have hdec : dynamical_matrix ![0] (1 : Matrix (Fin 1) (Fin 1) ℝ) =
      1 * Matrix.diagonal ![0] * (1 : Matrix (Fin 1) (Fin 1) ℝ)ᵀ := by
    unfold dynamical_matrix
    rw [Matrix.transpose_one, Matrix.mul_one, Matrix.one_mul, Matrix.one_mul]
    ext i j
    fin_cases i
    fin_cases j
    simp [Matrix.diagonal_apply, Real.sign_zero]
  exact ⟨hU, hdec, longitudinal_modes_roundtrip ![0] 1 hU ![0] 1 hU hdec⟩

/-! ### C5 : termination and iteration count of the Bruggeman fixed point -/

/-- Evaluation of `_brug_iter_error` on isotropic (scalar) tensors: the whole
computation reduces to scalar complex arithmetic. -/
theorem brug_iter_error_scalar (a b l e f1 : ℂ) (s : String)
    (hd1 : e + l * (a - e) ≠ 0) (hd2 : e + l * (b - e) ≠ 0)
    (hS : f1 * (e + l * (a - e))⁻¹ + (1 - f1) * (e + l * (b - e))⁻¹ ≠ 0) :
    brug_iter_error (e • 1) (a • 1) (b • 1) s (l • 1) f1 =
      (((f1 * (a * (e + l * (a - e))⁻¹) + (1 - f1) * (b * (e + l * (b - e))⁻¹)) *
          (f1 * (e + l * (a - e))⁻¹ + (1 - f1) * (e + l * (b - e))⁻¹)⁻¹) • 1,
        Real.sqrt (3 * Complex.normSq
          (f1 * ((a - e) * (e + l * (a - e))⁻¹) +
            (1 - f1) * ((b - e) * (e + l * (b - e))⁻¹)))) := by
  simp only [brug_iter_error, ← sub_smul, smul_one_mul_smul_one,
    average_tensor_smul_one, ← add_smul, smul_smul, smul_one_inv hd1,
    smul_one_inv hd2, smul_one_inv hS, frob_smul_one]

theorem three_mul_normSq_eq {z : ℂ} {r q : ℝ} (hz : z = (r : ℂ))
    (hq : 3 * (r * r) = q) : 3 * Complex.normSq z = q := by
  rw [hz, Complex.normSq_ofReal, hq]

/-- One Bruggeman step at the isotropic state `4·I` for host `I`,
inclusion `-I`, depolarisation `2·I` and volume fraction `1/2`: the next
state is `(1/2)·I` and the residual is `sqrt(49/12)`. -/
theorem brug_iter_error_at_four :
    brug_iter_error ((4:ℂ) • 1) ((1:ℂ) • 1) ((-1:ℂ) • 1) "sphere"
      ((2:ℂ) • 1) (1 - (1/2 : ℂ)) =
      ((1/2 : ℂ) • 1, Real.sqrt (49/12)) := by
  rw [brug_iter_error_scalar 1 (-1) 2 4 (1 - (1/2 : ℂ)) "sphere"
    (by norm_num) (by norm_num) (by norm_num)]
  rw [Prod.mk.injEq]
  constructor
  · congr 1
    norm_num
  · congr 1
    apply three_mul_normSq_eq (r := 7/6)
    · push_cast
      norm_num
    · norm_num

/-- One Bruggeman step at the isotropic state `(1/2)·I` for the same data:
the next state is `4·I` and the residual is `sqrt(49/75)`. -/
theorem brug_iter_error_at_half :
    brug_iter_error ((1/2 : ℂ) • 1) ((1:ℂ) • 1) ((-1:ℂ) • 1) "sphere"
      ((2:ℂ) • 1) (1 - (1/2 : ℂ)) =
      ((4 : ℂ) • 1, Real.sqrt (49/75)) := by
  rw [brug_iter_error_scalar 1 (-1) 2 (1/2) (1 - (1/2 : ℂ)) "sphere"
    (by norm_num) (by norm_num) (by norm_num)]
  rw [Prod.mk.injEq]
  constructor
  · congr 1
    norm_num
  · congr 1
    apply three_mul_normSq_eq (r := 7/15)
    · push_cast
      norm_num
    · norm_num

theorem sqrt_4912_not_small : ¬(|Real.sqrt (49/12)| < 1e-8) := by
  rw [abs_of_nonneg (Real.sqrt_nonneg _), not_lt]
  rw [show ((1e-8 : ℝ)) = 1/10^8 by norm_num]
  apply Real.le_sqrt_of_sq_le
  norm_num

theorem sqrt_4975_not_small : ¬(|Real.sqrt (49/75)| < 1e-8) := by
  rw [abs_of_nonneg (Real.sqrt_nonneg _), not_lt]
  rw [show ((1e-8 : ℝ)) = 1/10^8 by norm_num]
  apply Real.le_sqrt_of_sq_le
  norm_num

/-- On the 2-cycle `4·I ↔ (1/2)·I` the residual never drops below the
tolerance, so the loop runs until the counter check stops it: entered with
counter `niters`, it always returns the counter value 3001. -/
theorem bruggeman_loop_cycle (k : ℕ) : ∀ niters : ℕ, niters + k = 3000 →
    (bruggeman_loop ((1:ℂ) • 1) ((-1:ℂ) • 1) "sphere" ((2:ℂ) • 1)
      (1 - (1/2 : ℂ)) niters ((4:ℂ) • 1)).2 = 3001 ∧
    (bruggeman_loop ((1:ℂ) • 1) ((-1:ℂ) • 1) "sphere" ((2:ℂ) • 1)
      (1 - (1/2 : ℂ)) niters ((1/2 : ℂ) • 1)).2 = 3001 := by
  induction k with
  | zero =>
    intro niters h
    have hn : niters = 3000 := by omega
    subst hn
    constructor
    · rw [bruggeman_loop, dif_pos (Or.inr (by omega))]
    · rw [bruggeman_loop, dif_pos (Or.inr (by omega))]
  | succ k ih =>
    intro niters h
    have hcap : ¬(niters + 1 > 3000) := by omega
    constructor
    · rw [bruggeman_loop, brug_iter_error_at_four]
      rw [dif_neg (by
        rw [not_or]
        exact ⟨sqrt_4912_not_small, hcap⟩)]
      exact (ih (niters + 1) (by omega)).2
    · rw [bruggeman_loop, brug_iter_error_at_half]
      rw [dif_neg (by
        rw [not_or]
        exact ⟨sqrt_4975_not_small, hcap⟩)]
      exact (ih (niters + 1) (by omega)).1

/-- The loop counter can never exceed `max (niters + 1) 3001`. -/
theorem bruggeman_loop_count_le (eps1 eps2 : M3) (s : String) (L : M3)
    (f1 : ℂ) (k : ℕ) : ∀ (niters : ℕ) (epsbr : M3), 3001 - niters ≤ k →
    (bruggeman_loop eps1 eps2 s L f1 niters epsbr).2 ≤ max (niters + 1) 3001 := by
  induction k with
  | zero =>
    intro niters epsbr h
    rw [bruggeman_loop, dif_pos (Or.inr (by omega))]
    exact le_max_left _ _
  | succ k ih =>
    intro niters epsbr h
    rw [bruggeman_loop]
    by_cases hc : |(brug_iter_error epsbr eps1 eps2 s L f1).2| < 1e-8 ∨
        niters + 1 > 3000
    · rw [dif_pos hc]
      exact le_max_left _ _
    · rw [dif_neg hc]
      rw [not_or] at hc
      have hcap : niters + 1 ≤ 3000 := by omega
      have h2 := ih (niters + 1) (brug_iter_error epsbr eps1 eps2 s L f1).1
        (by omega)
      omega

/-- C5 counterexample: for host `I`, inclusion `-I`, depolarisation `2·I`,
volume fraction `1/2` and starting guess `4·I`, the iteration oscillates on
the 2-cycle `4·I ↔ (1/2)·I` with residual always above the tolerance, and the
loop body executes 3001 times — more than the 3000 the claim allows.  (The
`niters > 3000` check runs after the increment, so one extra body execution
happens.) -/
theorem bruggeman_iter_count_counterexample :
    (bruggeman_loop ((1:ℂ) • 1) ((-1:ℂ) • 1) "sphere" ((2:ℂ) • 1)
      (1 - (1/2 : ℂ)) 0 ((4:ℂ) • 1)).2 = 3001 ∧
    bruggeman_iter ((1:ℂ) • 1) ((-1:ℂ) • 1) "sphere" ((2:ℂ) • 1) (1/2)
      ((4:ℂ) • 1) =
      average_tensor (bruggeman_loop ((1:ℂ) • 1) ((-1:ℂ) • 1) "sphere"
        ((2:ℂ) • 1) (1 - (1/2 : ℂ)) 0 ((4:ℂ) • 1)).1 ∧
    ¬((3001 : ℕ) ≤ 3000) :=
  ⟨(bruggeman_loop_cycle 3000 0 (by omega)).1, rfl, by omega⟩

/-- C5 (amended): for every input the Bruggeman fixed-point solver
terminates: the loop body (one `_brug_iter_error` update per execution) runs
at most 3001 times — the counter check `niters > 3000` runs after the
increment, allowing one more execution than the claimed 3000 — it stops
after a single iteration as soon as the first residual is below `1e-8`, and
`bruggeman_iter` returns the (trace-averaged) last iterate of the loop. -/
theorem bruggeman_iter_termination (eps1 eps2 : M3) (shape : String) (L : M3)
    (f2 : ℂ) (epsbr : M3) :
    (bruggeman_loop eps1 eps2 shape L (1 - f2) 0 epsbr).2 ≤ 3001 ∧
    (|(brug_iter_error epsbr eps1 eps2 shape L (1 - f2)).2| < 1e-8 →
      (bruggeman_loop eps1 eps2 shape L (1 - f2) 0 epsbr).2 = 1) ∧
    bruggeman_iter eps1 eps2 shape L f2 epsbr =
      average_tensor (bruggeman_loop eps1 eps2 shape L (1 - f2) 0 epsbr).1 := by
  refine ⟨?_, ?_, rfl⟩
  · have h := bruggeman_loop_count_le eps1 eps2 shape L (1 - f2) 3001 0 epsbr
      (by omega)
    omega
  · intro h
    rw [bruggeman_loop, dif_pos (Or.inl h)]

/-- C5 witness: with host, inclusion and starting guess all the identity and
zero depolarisation, the first residual is 0, below the tolerance, and the
loop stops after exactly one iteration. -/
theorem bruggeman_iter_termination_witness :
    |(brug_iter_error 1 1 1 "sphere" 0 (1 - (1/2 : ℂ))).2| < 1e-8 ∧
    (bruggeman_loop 1 1 "sphere" 0 (1 - (1/2 : ℂ)) 0 1).2 = 1 := by
  have h0 : (brug_iter_error 1 1 1 "sphere" 0 (1 - (1/2 : ℂ))).2 = 0 := by
    simp [brug_iter_error, average_tensor, isoDiag_eq_smul_one, frob]
  have herr : |(brug_iter_error 1 1 1 "sphere" 0 (1 - (1/2 : ℂ))).2| < 1e-8 := by
    rw [h0, abs_zero]
    norm_num
  exact ⟨herr, (bruggeman_iter_termination 1 1 "sphere" 0 (1/2) 1).2.1 herr⟩
